import Mathlib

/-!
Verification of the serial protocol engine of src/main.c (Renspired).

The C program is a cooperative polling loop: every wait repeatedly queries
the byte channel (uart_has_data / uart_read_char), the clock (get_time_ms)
and the cancel signal (isKeyPressed ESC).  We embed it shallowly: the
environment is a finite list of per-iteration observations, one `Obs` per
loop iteration, carrying the clock value seen by that iteration, the byte
available to it (if any) and whether ESC is pressed.  Each busy-wait loop
of the C code becomes a structurally recursive function on the observation
list; running out of observations yields `none` (the environment is not
specified far enough for the code to have returned).  Clock reads that
happen immediately before a loop take the time of the first observation of
that loop (`startOf`).  Machine integers are modelled as `Nat`/`Int`;
the C unsigned subtraction `now - start` is `Nat` truncated subtraction,
which agrees with the C value whenever the clock is monotone within a
session.  Writes into the caller-supplied response buffer are recorded as
(index, byte) pairs; bytes written to the channel that matter to the
claims (the acknowledgement bytes of the chunk phase) are recorded as the
size of the chunk each ack byte acknowledges.  Display output (nio_printf,
scrollback) is pure presentation and is not modelled.
-/

set_option maxRecDepth 8192

namespace Renspired

/-- EOT_CHAR from main.c (0x04): designated terminator byte. -/
def EOT_CHAR : Nat := 4

/-- MAX_HISTORY_TURNS from main.c: capacity of the history store. -/
def MAX_HISTORY_TURNS : Nat := 20

/-- CHUNK_SIZE, the local constant of receive_response in main.c. -/
def CHUNK_SIZE : Nat := 64

/-- MAX_RESPONSE_LEN from main.c: the buffer size the caller passes. -/
def MAX_RESPONSE_LEN : Nat := 16384

/-! ### JSON escaping (json_escape_to_uart, main.c lines 300-325) -/

/-- The switch body of json_escape_to_uart for a single character `c`
(a byte, as Nat): the bytes this iteration writes to the channel. -/
def json_escape_char (c : Nat) : List Nat :=
  if c = 34 then [92, 34]
  else if c = 92 then [92, 92]
  else if c = 10 then [92, 110]
  else if c = 13 then [92, 114]
  else if c = 9 then [92, 116]
  else if 32 ≤ c ∧ c < 127 then [c]
  else []

/-- json_escape_to_uart from main.c: the while loop over the input string,
concatenating the bytes written for each character. -/
def json_escape_to_uart : List Nat → List Nat
  | [] => []
  | c :: s => json_escape_char c ++ json_escape_to_uart s

/-- The per-character escaping map as worded by the spec (claim C6): a fixed
substitution table for the five characters quote, backslash, newline,
carriage return and tab; bytes outside printable ASCII (other than those
five) are dropped; every other byte passes through unchanged.  This
definition follows the words of the spec, to be compared with the
source-derived `json_escape_to_uart`. -/
def escCharSpec (c : Nat) : List Nat :=
  if c ∈ ([34, 92, 10, 13, 9] : List Nat) then
    -- the two-character escape forms of the substitution table
    if c = 34 then [92, 34]
    else if c = 92 then [92, 92]
    else if c = 10 then [92, 110]
    else if c = 13 then [92, 114]
    else [92, 116]
  else if 32 ≤ c ∧ c < 127 then [c]
  else []

/-- The whole-string escaping map as worded by the spec: apply the
per-character table to each byte and concatenate. -/
def jsonEscapeSpec (s : List Nat) : List Nat := (s.map escCharSpec).flatten

/-! ### History store (history_add, main.c lines 504-515)

A turn is a (role, content) pair.  The C struct owns its strings
(strcpy/strdup); ownership is implicit in the functional model. -/

/-- history_add from main.c: if the store is at capacity, evict the head
turn (free + memmove), then append the new turn at the tail. -/
def history_add (h : List (String × String)) (role content : String) :
    List (String × String) :=
  (if MAX_HISTORY_TURNS ≤ h.length then h.drop 1 else h) ++ [(role, content)]

/-! ### Environment observations -/

/-- One iteration of a busy-wait loop observes: the clock (`now`, in ms),
at most one available channel byte (`byte`), and the cancel signal
(`esc`, true iff ESC is pressed during this iteration). -/
structure Obs where
  now : Nat
  byte : Option Nat
  esc : Bool
deriving DecidableEq

/-- The clock value read immediately before entering a loop: the time of
the first observation of that loop (0 for an exhausted trace). -/
def startOf : List Obs → Nat
  | [] => 0
  | e :: _ => e.now

/-- An observation delivering byte `b` at time `t`. -/
def obsB (t b : Nat) : Obs := ⟨t, some b, false⟩

/-- An idle observation (no byte, no cancel) at time `t`. -/
def obsN (t : Nat) : Obs := ⟨t, none, false⟩

/-- An observation with no byte but the cancel signal asserted, at `t`. -/
def obsEsc (t : Nat) : Obs := ⟨t, none, true⟩

/-- A burst of byte observations, all at time `t`. -/
def bytesAt (t : Nat) (bs : List Nat) : List Obs := bs.map (obsB t)

/-! ### Response header (wait_for_len_or_error, main.c lines 366-397) -/

/-- atoi from the C library, on the bytes of a NUL-terminated buffer:
skip whitespace, optional sign, then decimal digits. -/
def atoiDigits (acc : Nat) : List Nat → Nat
  | [] => acc
  | c :: cs => if 48 ≤ c ∧ c ≤ 57 then atoiDigits (acc * 10 + (c - 48)) cs else acc

/-- atoi: C library behaviour on a byte list. -/
def atoi (s : List Nat) : Int :=
  match s.dropWhile (fun c => c == 32 || (9 ≤ c && c ≤ 13)) with
  | 45 :: rest => -(atoiDigits 0 rest : Int)
  | 43 :: rest => (atoiDigits 0 rest : Int)
  | rest => (atoiDigits 0 rest : Int)

/-- The bytes of the prefix LEN: . -/
def LENp : List Nat := [76, 69, 78, 58]

/-- The bytes of the prefix ERR: . -/
def ERRp : List Nat := [69, 82, 82, 58]

/-- wait_for_len_or_error from main.c: 60 s deadline measured from `s`;
accumulate a line (at most 31 bytes kept); on newline, a LEN: line returns
atoi of the rest, an ERR: line returns -1, any other line is discarded;
ESC is polled at the end of every iteration and returns -1; deadline
exceeded returns -1.  Returns the header value and the unconsumed trace. -/
def wait_for_len_or_error (s : Nat) (buf : List Nat) :
    List Obs → Option (Int × List Obs)
  | [] => none
  | e :: tr =>
    if 60000 ≤ e.now - s then some (-1, tr)
    else
      match e.byte with
      | some c =>
        if c = 10 then
          if buf.take 4 = LENp then some (atoi (buf.drop 4), tr)
          else if buf.take 4 = ERRp then some (-1, tr)
          else if e.esc then some (-1, tr)
          else wait_for_len_or_error s [] tr
        else
          if e.esc then some (-1, tr)
          else wait_for_len_or_error s (if buf.length < 31 then buf ++ [c] else buf) tr
      | none => if e.esc then some (-1, tr) else wait_for_len_or_error s buf tr

/-! ### Chunked body (receive_response chunk loop, main.c lines 419-453) -/

/-- How the chunk loop of receive_response ended: `normal` is the outer
while condition becoming false, `eot` is the goto done on an early
terminator byte, `cancel` is the ESC return-false path. -/
inductive ChunkExitK where
  | normal
  | eot
  | cancel
deriving DecidableEq

/-- Result of the chunk loop: exit kind, the final value of the C variable
`received`, the buffer writes performed (chronological (index, byte)
pairs), the acknowledgement bytes sent (each entry is one ack byte 'A',
recorded as the chunk_got value it acknowledges), and the unconsumed
trace. -/
structure ChunkRes where
  exitK : ChunkExitK
  received : Nat
  writes : List (Nat × Nat)
  acks : List Nat
  rest : List Obs
deriving DecidableEq

/-- The nested chunk loops of receive_response (main.c lines 424-453).
State: `received` bytes from completed chunks, `chunkGot` bytes of the
current chunk, `start` the inactivity-timeout reference.  Per observation:
the inner while condition reads the clock; past the 120 s deadline the
inner loop exits, received += chunk_got, an ack byte is sent and the outer
loop re-enters (note: `start` is not reset, and no failure is reported).
Within the deadline: an available terminator byte jumps to done keeping
the current `received` (chunk_got is NOT added); any other byte is stored
at received + chunk_got and resets `start`; with chunk_got reaching the
chunk target the chunk completes (no clock read), an ack is sent and the
outer loop continues or ends; with no byte, ESC stores a NUL at `received`
and returns the cancel failure. -/
def recvLoop (expected received chunkGot start : Nat) (writes : List (Nat × Nat))
    (acks : List Nat) : List Obs → Option ChunkRes
  | [] => none
  | e :: tr =>
    if 120000 ≤ e.now - start then
      if received + chunkGot < expected then
        recvLoop expected (received + chunkGot) 0 start writes (acks ++ [chunkGot]) tr
      else some ⟨.normal, received + chunkGot, writes, acks ++ [chunkGot], tr⟩
    else
      match e.byte with
      | some c =>
        if c = EOT_CHAR then some ⟨.eot, received, writes, acks, tr⟩
        else if chunkGot + 1 = Nat.min CHUNK_SIZE (expected - received) then
          if received + (chunkGot + 1) < expected then
            recvLoop expected (received + (chunkGot + 1)) 0 e.now
              (writes ++ [(received + chunkGot, c)]) (acks ++ [chunkGot + 1]) tr
          else some ⟨.normal, received + (chunkGot + 1),
            writes ++ [(received + chunkGot, c)], acks ++ [chunkGot + 1], tr⟩
        else
          recvLoop expected received (chunkGot + 1) e.now
            (writes ++ [(received + chunkGot, c)]) acks tr
      | none =>
        if e.esc then some ⟨.cancel, received, writes ++ [(received, 0)], acks, tr⟩
        else recvLoop expected received chunkGot start writes acks tr

/-- The trailing-terminator wait of receive_response (main.c lines
459-465): up to 2 s from entry, discard bytes until one terminator byte;
absence is not an error.  Returns the unconsumed trace. -/
def eotLoop (s : Nat) : List Obs → Option (List Obs)
  | [] => none
  | e :: tr =>
    if 2000 ≤ e.now - s then some tr
    else
      match e.byte with
      | some c => if c = EOT_CHAR then some tr else eotLoop s tr
      | none => eotLoop s tr

/-- Phase D entry: start = get_time_ms() immediately before the loop. -/
def eotWait (tr : List Obs) : Option (List Obs) := eotLoop (startOf tr) tr

/-- Result of receive_response: the returned bool, the index at which the
result is NUL-terminated (the final value of `received`; 0 on the failure
paths that write nothing), all buffer writes, whether the header ack byte
was sent, the chunk-phase ack bytes, and the unconsumed trace. -/
structure RespRes where
  ok : Bool
  resultLen : Nat
  writes : List (Nat × Nat)
  headerAck : Bool
  chunkAcks : List Nat
  rest : List Obs
deriving DecidableEq

/-- receive_response from main.c (lines 399-497): header phase, length 0
short-circuit, clamp of the expected length to max_len - 1, header ack,
chunk loop, NUL termination at `received`, trailing-terminator wait.
Display calls (scroll_add_*, redraw) are presentation and not modelled. -/
def receive_response (max_len : Nat) (tr : List Obs) : Option RespRes :=
  match wait_for_len_or_error (startOf tr) [] tr with
  | none => none
  | some (len, tr1) =>
    if len < 0 then some ⟨false, 0, [], false, [], tr1⟩
    else if len = 0 then some ⟨true, 0, [(0, 0)], false, [], tr1⟩
    else
      let expected : Nat := if (max_len : Int) ≤ len then max_len - 1 else len.toNat
      if expected = 0 then
        -- outer while skipped; done: NUL at index 0, then the EOT wait
        match eotWait tr1 with
        | none => none
        | some tr2 => some ⟨true, 0, [(0, 0)], true, [], tr2⟩
      else
        match recvLoop expected 0 0 (startOf tr1) [] [] tr1 with
        | none => none
        | some cr =>
          if cr.exitK = ChunkExitK.cancel then
            some ⟨false, cr.received, cr.writes, true, cr.acks, cr.rest⟩
          else
            match eotWait cr.rest with
            | none => none
            | some tr2 =>
              some ⟨true, cr.received, cr.writes ++ [(cr.received, 0)], true,
                cr.acks, tr2⟩

/-! ### Handshake (uart_handshake, main.c lines 140-218) -/

/-- How a sentinel-line wait ended. -/
inductive LWKind where
  | hit
  | deadline
  | escAbort
deriving DecidableEq

/-- Result of a sentinel-line wait: how it ended, the clock value of the
iteration that ended it, and the unconsumed trace. -/
structure LWRes where
  kind : LWKind
  time : Nat
  rest : List Obs
deriving DecidableEq

/-- The common shape of the three sentinel-line waits of uart_handshake:
deadline `D` from `s`; per iteration the while condition reads the clock,
then (when `escAborts`) ESC is polled, then one available byte is
processed: carriage returns are skipped, at most 31 bytes of a line are
kept, and a completed line equal to one of `targets` breaks out. -/
def lineWait (D : Nat) (targets : List (List Nat)) (escAborts : Bool) (s : Nat)
    (buf : List Nat) : List Obs → Option LWRes
  | [] => none
  | e :: tr =>
    if D ≤ e.now - s then some ⟨.deadline, e.now, tr⟩
    else if escAborts && e.esc then some ⟨.escAbort, e.now, tr⟩
    else
      match e.byte with
      | some c =>
        if c = 10 then
          if buf ∈ targets then some ⟨.hit, e.now, tr⟩
          else lineWait D targets escAborts s [] tr
        else if c ≠ 13 ∧ buf.length < 31 then lineWait D targets escAborts s (buf ++ [c]) tr
        else lineWait D targets escAborts s buf tr
      | none => lineWait D targets escAborts s buf tr

/-- uart_drain from main.c (lines 126-133): for `D` ms from `s`, discard
any available bytes.  Returns the exit-iteration time and the rest. -/
def uart_drain (D s : Nat) : List Obs → Option (Nat × List Obs)
  | [] => none
  | e :: tr => if D ≤ e.now - s then some (e.now, tr) else uart_drain D s tr

/-- The bytes of the sentinel AWAKE. -/
def AWAKEs : List Nat := [65, 87, 65, 75, 69]

/-- The bytes of the sentinel ESP_READY. -/
def ESP_READYs : List Nat := [69, 83, 80, 95, 82, 69, 65, 68, 89]

/-- The bytes of the sentinel READY. -/
def READYs : List Nat := [82, 69, 65, 68, 89]

/-- uart_handshake from main.c: drain 100 ms; write wake newlines; wait up
to 2 s for AWAKE or ESP_READY (fall through on deadline); write RST; wait
up to 15 s for ESP_READY with ESC aborting to false (fall through on
deadline); drain 50 ms; write SYNC; wait up to 5 s for READY, returning
true on the sentinel and false on the deadline.  Channel writes do not
consume observations and are not recorded (no claim concerns them).
Returns (outcome, time of the deciding iteration, unconsumed trace). -/
def uart_handshake (tr : List Obs) : Option (Bool × Nat × List Obs) :=
  match uart_drain 100 (startOf tr) tr with
  | none => none
  | some (_, tr1) =>
    match lineWait 2000 [AWAKEs, ESP_READYs] false (startOf tr1) [] tr1 with
    | none => none
    | some ex1 =>
      match lineWait 15000 [ESP_READYs] true (startOf ex1.rest) [] ex1.rest with
      | none => none
      | some ex2 =>
        if ex2.kind = LWKind.escAbort then some (false, ex2.time, ex2.rest)
        else
          match uart_drain 50 (startOf ex2.rest) ex2.rest with
          | none => none
          | some (_, tr4) =>
            match lineWait 5000 [READYs] false (startOf tr4) [] tr4 with
            | none => none
            | some ex3 =>
              if ex3.kind = LWKind.hit then some (true, ex3.time, ex3.rest)
              else some (false, ex3.time, ex3.rest)

/-! ### Concrete traces and trace predicates used by the claims -/

/-- The bytes of the header line LEN:200 with its newline. -/
def LEN200 : List Nat := [76, 69, 78, 58, 50, 48, 48, 10]

/-- The bytes of the header line LEN:5 with its newline. -/
def LEN5 : List Nat := [76, 69, 78, 58, 53, 10]

/-- The bytes of the header line LEN:0 with its newline. -/
def LEN0 : List Nat := [76, 69, 78, 58, 48, 10]

/-- The bytes of the header line LEN:10 with its newline. -/
def LEN10 : List Nat := [76, 69, 78, 58, 49, 48, 10]

/-- C1 failing input: header LEN:200, then 30 non-terminator bytes (0x41),
then the terminator 0x04; one further terminator for the trailing wait. -/
def c1trace : List Obs :=
  bytesAt 0 LEN200 ++ bytesAt 0 (List.replicate 30 65) ++ [obsB 0 4, obsB 0 4]

/-- C2 failing input: header LEN:5, one idle observation fixing the
timeout reference at 0, then `n` idle observations past the 120 s
deadline (no byte ever arrives in the chunk phase). -/
def c2trace (n : Nat) : List Obs :=
  bytesAt 0 LEN5 ++ obsN 0 :: List.replicate n (obsN 200000)

/-- C3 counterexample input: header LEN:200 for a capacity-5 buffer, then
4 body bytes, then a terminator for the trailing wait. -/
def c3trace : List Obs :=
  bytesAt 0 LEN200 ++ bytesAt 0 (List.replicate 4 65) ++ [obsB 0 4]

/-- C4 input: header LEN:10, three body bytes, then an idle observation
with the cancel signal asserted, then one observation never reached. -/
def c4trace : List Obs :=
  bytesAt 0 LEN10 ++ bytesAt 0 [65, 66, 67] ++ obsEsc 0 :: [obsN 7]

/-- The bytes of the header line LEN:100 with its newline. -/
def LEN100 : List Nat := [76, 69, 78, 58, 49, 48, 48, 10]

/-- C4 witness input: header LEN:100, 67 body bytes (a full 64-byte chunk
plus 3 bytes of the next), then an idle observation with the cancel
signal asserted, then one observation never reached. -/
def c4btrace : List Obs :=
  bytesAt 0 LEN100 ++ bytesAt 0 (List.replicate 67 65) ++ obsEsc 0 :: [obsN 7]

/-- C7 witness input: header LEN:0 followed by one observation that must
remain unconsumed. -/
def c7trace : List Obs := bytesAt 0 LEN0 ++ [obsB 9 9]

/-- C8 input: header LEN:200 and a 200-byte body with no early
terminator, then the concluding terminator byte. -/
def c8trace : List Obs :=
  bytesAt 0 LEN200 ++ bytesAt 0 (List.replicate 200 65) ++ [obsB 0 4]

/-- C9 input: no byte ever arrives; observations 1 s apart. -/
def c9trace : List Obs := (List.range 29).map (fun i => ⟨1000 * i, none, false⟩)

/-- C10 witness input: header LEN:0 alone. -/
def c10trace : List Obs := bytesAt 0 LEN0

/-- C5 witness input: 21 appended turns. -/
def c5input : List (String × String) := List.replicate 21 ("user", "hi")

/-- A trace on which the channel never presents a byte and the cancel
signal is never asserted. -/
def Quiet (tr : List Obs) : Prop := ∀ e ∈ tr, e.byte = none ∧ e.esc = false

/-- Clock monotonicity along a trace. -/
def Mono (tr : List Obs) : Prop := tr.Pairwise (fun a b => a.now ≤ b.now)

/-- The buffer writes produced by storing the byte list `bs` at
consecutive indices from `base`. -/
def idxWrites (base : Nat) : List Nat → List (Nat × Nat)
  | [] => []
  | b :: bs => (base, b) :: idxWrites (base + 1) bs

/-! ### Helper lemmas -/

/-- The switch of json_escape_to_uart agrees character by character with
the substitution table worded by the spec. -/
theorem json_escape_char_eq_spec (c : Nat) : json_escape_char c = escCharSpec c := by
  unfold json_escape_char escCharSpec
  split_ifs <;> simp_all

/-- Folding history_add over a list of appends, starting from a store
within capacity, keeps exactly the most recent 20 turns. -/
theorem history_foldl_drop (apps : List (String × String)) :
    ∀ h : List (String × String), h.length ≤ 20 →
      apps.foldl (fun acc t => history_add acc t.1 t.2) h =
        (h ++ apps).drop (h.length + apps.length - 20) := by
  induction apps with
  | nil =>
    intro h hh
    simp [Nat.sub_eq_zero_of_le hh]
  | cons a as ih =>
    intro h hh
    rw [List.foldl_cons]
    by_cases hlt : h.length < 20
    · have hstep : history_add h a.1 a.2 = h ++ [a] := by
        unfold history_add MAX_HISTORY_TURNS
        rw [if_neg (by omega)]
      rw [hstep, ih (h ++ [a]) (by simp; omega)]
      have harr : (h ++ [a]).length + as.length - 20 =
          h.length + (a :: as).length - 20 := by
        simp
        omega
      rw [harr, List.append_assoc]
      simp
    · have h20 : h.length = 20 := by omega
      have hstep : history_add h a.1 a.2 = h.drop 1 ++ [a] := by
        unfold history_add MAX_HISTORY_TURNS
        rw [if_pos (by omega)]
      rw [hstep, ih (h.drop 1 ++ [a]) (by simp [List.length_drop]; omega)]
      cases h with
      | nil => simp at h20
      | cons x xs =>
        have hxs : xs.length = 19 := by simpa using h20
        have e1 : ((x :: xs).drop 1 ++ [a]).length + as.length - 20 = as.length := by
          simp [hxs]
        have e2 : (x :: xs).length + (a :: as).length - 20 = as.length + 1 := by
          simp [hxs]
        rw [e1, e2]
        simp [List.append_assoc]

/-- Invariant of the chunk loop: from any state in which the current chunk
is strictly unfinished and the acks sent so far account exactly for the
bytes of completed chunks, any returned result has `received` bounded by
the expected length, acks summing to `received`, and every buffer write
not already present beforehand lands at an index below the expected
length. -/
theorem recvLoop_inv :
    ∀ (tr : List Obs) (expected received chunkGot start : Nat)
      (writes : List (Nat × Nat)) (acks : List Nat) (cr : ChunkRes),
      chunkGot < Nat.min CHUNK_SIZE (expected - received) →
      acks.sum = received →
      recvLoop expected received chunkGot start writes acks tr = some cr →
      cr.received ≤ expected ∧ cr.acks.sum = cr.received ∧
        ∀ p ∈ cr.writes, p ∈ writes ∨ p.1 < expected := by
  intro tr
  induction tr with
  | nil =>
    intro expected received chunkGot start writes acks cr _ _ h
    simp [recvLoop] at h
  | cons e tr ih =>
    intro expected received chunkGot start writes acks cr hg hs h
    have hC : CHUNK_SIZE = 64 := rfl
    rw [Nat.lt_min] at hg
    obtain ⟨hg1, hg2⟩ := hg
    simp only [recvLoop] at h
    by_cases ht : 120000 ≤ e.now - start
    · rw [if_pos ht] at h
      by_cases hlt : received + chunkGot < expected
      · rw [if_pos hlt] at h
        have hinv : (0 : Nat) < Nat.min CHUNK_SIZE (expected - (received + chunkGot)) := by
          rw [Nat.lt_min]
          omega
        have hsum : (acks ++ [chunkGot]).sum = received + chunkGot := by
          simp [hs]
        exact ih expected (received + chunkGot) 0 start writes (acks ++ [chunkGot])
          cr hinv hsum h
      · exact absurd (show received + chunkGot < expected by omega) hlt
    · rw [if_neg ht] at h
      cases hb : e.byte with
      | some c =>
        simp only [hb] at h
        by_cases hc : c = EOT_CHAR
        · rw [if_pos hc] at h
          obtain rfl := Option.some.inj h
          dsimp only
          exact ⟨by omega, hs, fun p hp => Or.inl hp⟩
        · rw [if_neg hc] at h
          by_cases hfull : chunkGot + 1 = Nat.min CHUNK_SIZE (expected - received)
          · rw [if_pos hfull] at h
            have hmr : Nat.min CHUNK_SIZE (expected - received) ≤ expected - received :=
              Nat.min_le_right _ _
            by_cases hlt2 : received + (chunkGot + 1) < expected
            · rw [if_pos hlt2] at h
              have hinv : (0 : Nat) <
                  Nat.min CHUNK_SIZE (expected - (received + (chunkGot + 1))) := by
                rw [Nat.lt_min]
                omega
              have hsum : (acks ++ [chunkGot + 1]).sum = received + (chunkGot + 1) := by
                simp [hs]
              have hres := ih expected (received + (chunkGot + 1)) 0 e.now
                (writes ++ [(received + chunkGot, c)]) (acks ++ [chunkGot + 1])
                cr hinv hsum h
              refine ⟨hres.1, hres.2.1, fun p hp => ?_⟩
              rcases hres.2.2 p hp with hw | hw
              · rcases List.mem_append.mp hw with hw' | hw'
                · exact Or.inl hw'
                · simp at hw'
                  subst hw'
                  exact Or.inr (by omega)
              · exact Or.inr hw
            · rw [if_neg hlt2] at h
              obtain rfl := Option.some.inj h
              dsimp only
              refine ⟨by omega, by simp [hs], fun p hp => ?_⟩
              rcases List.mem_append.mp hp with hw' | hw'
              · exact Or.inl hw'
              · simp at hw'
                subst hw'
                exact Or.inr (by omega)
          · rw [if_neg hfull] at h
            have hinv : chunkGot + 1 < Nat.min CHUNK_SIZE (expected - received) := by
              rcases Nat.lt_or_ge (chunkGot + 1) (Nat.min CHUNK_SIZE (expected - received))
                with h' | h'
              · exact h'
              · exact absurd (Nat.le_antisymm (by rw [Nat.le_min]; omega) h') hfull
            have hres := ih expected received (chunkGot + 1) e.now
              (writes ++ [(received + chunkGot, c)]) acks cr hinv hs h
            refine ⟨hres.1, hres.2.1, fun p hp => ?_⟩
            rcases hres.2.2 p hp with hw | hw
            · rcases List.mem_append.mp hw with hw' | hw'
              · exact Or.inl hw'
              · simp at hw'
                subst hw'
                exact Or.inr (by omega)
            · exact Or.inr hw
      | none =>
        simp only [hb] at h
        by_cases hesc : e.esc = true
        · rw [if_pos hesc] at h
          obtain rfl := Option.some.inj h
          dsimp only
          refine ⟨by omega, hs, fun p hp => ?_⟩
          rcases List.mem_append.mp hp with hw' | hw'
          · exact Or.inl hw'
          · simp at hw'
            subst hw'
            exact Or.inr (by omega)
        · rw [if_neg hesc] at h
          exact ih expected received chunkGot start writes acks cr
            (by rw [Nat.lt_min]; omega) hs h

/-- Delivering a burst of prompt non-terminator bytes that stops strictly
short of the expected length advances the chunk loop across any number of
completed chunks: every completed chunk is a full CHUNK_SIZE bytes and is
acknowledged with one ack byte, `received` advances by CHUNK_SIZE per
completed chunk, and the bytes are stored at consecutive indices. -/
theorem recvLoop_burst :
    ∀ (bs : List Nat) (expected received chunkGot start t : Nat)
      (writes : List (Nat × Nat)) (acks : List Nat) (tr : List Obs),
      (∀ b ∈ bs, b ≠ EOT_CHAR) →
      chunkGot < CHUNK_SIZE →
      received + chunkGot + bs.length < expected →
      t - start < 120000 →
      recvLoop expected received chunkGot start writes acks (bytesAt t bs ++ tr) =
        recvLoop expected
          (received + CHUNK_SIZE * ((chunkGot + bs.length) / CHUNK_SIZE))
          ((chunkGot + bs.length) % CHUNK_SIZE)
          (if bs.isEmpty then start else t)
          (writes ++ idxWrites (received + chunkGot) bs)
          (acks ++ List.replicate ((chunkGot + bs.length) / CHUNK_SIZE) CHUNK_SIZE)
          tr := by
  intro bs
  induction bs with
  | nil =>
    intro expected received chunkGot start t writes acks tr _ hcg _ _
    simp [bytesAt, idxWrites, Nat.div_eq_of_lt hcg, Nat.mod_eq_of_lt hcg]
  | cons b bs ih =>
    intro expected received chunkGot start t writes acks tr hne hcg htot ht
    have hC : CHUNK_SIZE = 64 := rfl
    have hb : b ≠ EOT_CHAR := hne b (by simp)
    have hbytes : bytesAt t (b :: bs) ++ tr = obsB t b :: (bytesAt t bs ++ tr) := by
      simp [bytesAt]
    rw [hbytes]
    simp only [List.length_cons] at htot
    rw [hC] at hcg
    by_cases hfull : chunkGot + 1 = CHUNK_SIZE
    · -- this byte completes the current chunk: ack and start the next one
      rw [hC] at hfull
      have hstep : recvLoop expected received chunkGot start writes acks
          (obsB t b :: (bytesAt t bs ++ tr)) =
          recvLoop expected (received + (chunkGot + 1)) 0 t
            (writes ++ [(received + chunkGot, b)]) (acks ++ [chunkGot + 1])
            (bytesAt t bs ++ tr) := by
        simp only [recvLoop, obsB]
        rw [if_neg (by omega), if_neg hb,
          if_pos (show chunkGot + 1 = Nat.min CHUNK_SIZE (expected - received) by
            simp only [hC]
            have hm : Nat.min 64 (expected - received) = 64 :=
              Nat.min_eq_left (by omega)
            rw [hm]
            omega),
          if_pos (by omega)]
      rw [hstep]
      rw [ih expected (received + (chunkGot + 1)) 0 t t
        (writes ++ [(received + chunkGot, b)]) (acks ++ [chunkGot + 1]) tr
        (fun x hx => hne x (by simp [hx])) (by omega) (by omega) (by omega)]
      simp only [Nat.zero_add, Nat.add_zero, List.isEmpty_cons, List.length_cons,
        ite_self, Bool.false_eq_true, if_false, hC]
      have ed : chunkGot + (bs.length + 1) = bs.length + 64 := by omega
      rw [ed, Nat.add_div_right bs.length (by omega), Nat.add_mod_right]
      have er : received + (chunkGot + 1) + 64 * (bs.length / 64) =
          received + 64 * (bs.length / 64 + 1) := by omega
      rw [er]
      have ei : received + (chunkGot + 1) = received + chunkGot + 1 := by omega
      rw [ei, hfull]
      simp only [idxWrites, List.replicate_succ, List.append_assoc,
        List.singleton_append, List.cons_append, List.nil_append]
    · -- mid-chunk byte: store it and keep filling the same chunk
      rw [hC] at hfull
      have hstep : recvLoop expected received chunkGot start writes acks
          (obsB t b :: (bytesAt t bs ++ tr)) =
          recvLoop expected received (chunkGot + 1) t
            (writes ++ [(received + chunkGot, b)]) acks (bytesAt t bs ++ tr) := by
        simp only [recvLoop, obsB]
        rw [if_neg (by omega), if_neg hb,
          if_neg (show ¬(chunkGot + 1 = Nat.min CHUNK_SIZE (expected - received)) by
            simp only [hC]
            exact Nat.ne_of_lt (Nat.lt_min.mpr ⟨by omega, by omega⟩))]
      rw [hstep]
      rw [ih expected received (chunkGot + 1) t t
        (writes ++ [(received + chunkGot, b)]) acks tr
        (fun x hx => hne x (by simp [hx])) (by omega) (by omega) (by omega)]
      simp only [List.isEmpty_cons, List.length_cons, ite_self,
        Bool.false_eq_true, if_false]
      have ed : chunkGot + 1 + bs.length = chunkGot + (bs.length + 1) := by omega
      rw [ed]
      have ei : received + (chunkGot + 1) = received + chunkGot + 1 := by omega
      rw [ei]
      simp only [idxWrites, List.append_assoc, List.singleton_append]

/-- The ack-spin of the chunk loop: with the inactivity deadline already
exceeded and no byte ever arriving, every further observation produces one
ack byte and no exit; the loop never returns. -/
theorem recvLoop_spin :
    ∀ (n : Nat) (w : List (Nat × Nat)) (a : List Nat),
      recvLoop 5 0 0 0 w a (List.replicate n (obsN 200000)) = none := by
  intro n
  induction n with
  | zero => intro w a; rfl
  | succ m ih =>
    intro w a
    show recvLoop 5 0 0 0 w (a ++ [0]) (List.replicate m (obsN 200000)) = none
    exact ih w (a ++ [0])

/-- The header phase of the C2 failing input computes to LEN 5, the first
chunk-phase observation fixes the timeout reference at time 0, and a
chunk loop that never returns makes receive_response never return. -/
theorem c2_head (rest : List Obs) (h : recvLoop 5 0 0 0 [] [] rest = none) :
    receive_response 16384 (bytesAt 0 LEN5 ++ obsN 0 :: rest) = none := by
  have h1 : recvLoop 5 0 0 0 [] [] (obsN 0 :: rest) = none := by
    show recvLoop 5 0 0 0 [] [] rest = none
    exact h
  show (match recvLoop 5 0 0 0 [] [] (obsN 0 :: rest) with
    | none => (none : Option RespRes)
    | some cr =>
      if cr.exitK = ChunkExitK.cancel then
        some ⟨false, cr.received, cr.writes, true, cr.acks, cr.rest⟩
      else
        match eotWait cr.rest with
        | none => none
        | some tr2 =>
          some ⟨true, cr.received, cr.writes ++ [(cr.received, 0)], true,
            cr.acks, tr2⟩) = none
  rw [h1]

/-- uart_drain on a quiet monotone trace: it exits only when its deadline
has elapsed, and everything left lies at or after the exit time. -/
theorem uart_drain_quiet :
    ∀ (tr : List Obs) (D s : Nat), 0 < D → Quiet tr → Mono tr →
      ∀ t r, uart_drain D s tr = some (t, r) →
        s + D ≤ t ∧ Quiet r ∧ Mono r ∧ ∀ e ∈ r, t ≤ e.now := by
  intro tr
  induction tr with
  | nil =>
    intro D s _ _ _ t r h
    simp [uart_drain] at h
  | cons e tr ih =>
    intro D s hD hq hm t r h
    simp only [uart_drain] at h
    by_cases hd : D ≤ e.now - s
    · rw [if_pos hd] at h
      obtain ⟨rfl, rfl⟩ := Prod.mk.injEq _ _ _ _ ▸ Option.some.inj h
      exact ⟨by omega, fun x hx => hq x (List.mem_cons_of_mem _ hx),
        (List.pairwise_cons.mp hm).2, fun x hx => (List.pairwise_cons.mp hm).1 x hx⟩
    · rw [if_neg hd] at h
      exact ih D s hD (fun x hx => hq x (List.mem_cons_of_mem _ hx))
        (List.pairwise_cons.mp hm).2 t r h

/-- lineWait on a quiet monotone trace: no line can complete and the
cancel signal is never seen, so the only possible return is the deadline,
at a time at least the deadline past the start, with everything left lying
at or after the exit time. -/
theorem lineWait_quiet :
    ∀ (tr : List Obs) (D : Nat) (targets : List (List Nat)) (escA : Bool)
      (s : Nat) (buf : List Nat), 0 < D → Quiet tr → Mono tr →
      ∀ ex, lineWait D targets escA s buf tr = some ex →
        ex.kind = LWKind.deadline ∧ s + D ≤ ex.time ∧ Quiet ex.rest ∧ Mono ex.rest ∧
          ∀ e ∈ ex.rest, ex.time ≤ e.now := by
  intro tr
  induction tr with
  | nil =>
    intro D targets escA s buf _ _ _ ex h
    simp [lineWait] at h
  | cons e tr ih =>
    intro D targets escA s buf hD hq hm ex h
    obtain ⟨hqb, hqe⟩ := hq e (List.mem_cons_self _ _)
    simp only [lineWait] at h
    by_cases hd : D ≤ e.now - s
    · rw [if_pos hd] at h
      obtain rfl := Option.some.inj h
      dsimp only
      exact ⟨rfl, by omega, fun x hx => hq x (List.mem_cons_of_mem _ hx),
        (List.pairwise_cons.mp hm).2, fun x hx => (List.pairwise_cons.mp hm).1 x hx⟩
    · rw [if_neg hd, hqe, hqb] at h
      simp only [Bool.and_false, Bool.false_eq_true, if_false] at h
      exact ih D targets escA s buf hD (fun x hx => hq x (List.mem_cons_of_mem _ hx))
        (List.pairwise_cons.mp hm).2 ex h

/-- Whole-receiver invariant: on any returned result the chunk-phase ack
bytes account exactly for the kept bytes (`resultLen`), the kept length is
within the clamp max_len - 1, and every buffer write lands at an index at
most max_len - 1. -/
theorem receive_response_inv (max_len : Nat) (tr : List Obs) (r : RespRes)
    (h : receive_response max_len tr = some r) :
    r.chunkAcks.sum = r.resultLen ∧ r.resultLen ≤ max_len - 1 ∧
      ∀ p ∈ r.writes, p.1 ≤ max_len - 1 := by
  unfold receive_response at h
  cases hw : wait_for_len_or_error (startOf tr) [] tr with
  | none => simp [hw] at h
  | some p =>
    obtain ⟨len, tr1⟩ := p
    simp only [hw] at h
    by_cases h0 : len < 0
    · rw [if_pos h0] at h
      obtain rfl := Option.some.inj h
      simp
    · rw [if_neg h0] at h
      by_cases h1 : len = 0
      · subst h1
        rw [if_pos rfl] at h
        obtain rfl := Option.some.inj h
        simp
      · rw [if_neg h1] at h
        set expected : Nat := if (max_len : Int) ≤ len then max_len - 1 else len.toNat
          with hexp
        have hexpble : expected ≤ max_len - 1 := by
          rw [hexp]
          split_ifs with hcl
          · exact le_refl _
          · omega
        by_cases h2 : expected = 0
        · rw [if_pos h2] at h
          cases he : eotWait tr1 with
          | none => rw [he] at h; simp at h
          | some tr2 =>
            simp only [he] at h
            obtain rfl := Option.some.inj h
            simp
        · rw [if_neg h2] at h
          cases hr : recvLoop expected 0 0 (startOf tr1) [] [] tr1 with
          | none => rw [hr] at h; simp at h
          | some cr =>
            simp only [hr] at h
            have hinv := recvLoop_inv tr1 expected 0 0 (startOf tr1) [] [] cr
              (by rw [Nat.lt_min]; exact ⟨by decide, by omega⟩) rfl hr
            by_cases hcan : cr.exitK = ChunkExitK.cancel
            · rw [if_pos hcan] at h
              obtain rfl := Option.some.inj h
              dsimp only
              refine ⟨hinv.2.1, by omega, fun p hp => ?_⟩
              rcases hinv.2.2 p hp with hw' | hw'
              · simp at hw'
              · omega
            · rw [if_neg hcan] at h
              cases he : eotWait cr.rest with
              | none => rw [he] at h; simp at h
              | some tr2 =>
                simp only [he] at h
                obtain rfl := Option.some.inj h
                dsimp only
                refine ⟨hinv.2.1, by omega, fun p hp => ?_⟩
                rcases List.mem_append.mp hp with hw' | hw'
                · rcases hinv.2.2 p hw' with hw'' | hw''
                  · simp at hw''
                  · omega
                · simp at hw'
                  subst hw'
                  dsimp only
                  omega

/-! ### The claims -/

/-- C1: the claim says that with declared length 200 and 30 non-terminator
bytes followed by the terminator 0x04, receive_response returns exactly
those 30 bytes, null-terminated after the 30th.  The code violates this:
the goto done on the terminator skips the received += chunk_got update, so
the 30 bytes of the unfinished first chunk are stored (writes at indices
0..29) but the NUL is written at index 0 and the returned result is empty
(resultLen = 0), contradicting the inline comment Use what we have if EOT
comes early.  This theorem evaluates the model at the failing input. -/
theorem claim_C1 :
    (receive_response 16384 c1trace).map
        (fun r => (r.ok, r.resultLen, r.chunkAcks, r.writes)) =
      some (true, 0, [], idxWrites 0 (List.replicate 30 65) ++ [(0, 0)]) := by
  decide

/-- C2: the claim says that ≈120 s without a byte in the chunk phase makes
receive_response report failure and terminate.  The code violates this:
past the deadline the inner loop exits without resetting its reference
time and without any failure return, so the outer loop re-enters, sends an
ack byte, and spins.  This theorem evaluates the model at the failing
input: with header LEN:5 and no byte ever arriving afterwards, no number
`n` of further observations past the deadline suffices for
receive_response to return - the receiver never reports anything. -/
theorem claim_C2 (n : Nat) : receive_response 16384 (c2trace n) = none := by
  have h : c2trace n = bytesAt 0 LEN5 ++ obsN 0 :: List.replicate n (obsN 200000) := rfl
  rw [h]
  exact c2_head _ (recvLoop_spin n [] [])

/-- C3 counterexample: with buffer capacity 5 and declared length 200, the
claim as stated requires acknowledgements to keep coming for the full
declared 200 bytes (4 chunks).  The code clamps first and acknowledges
only the clamped length: it stores 4 bytes, sends exactly one ack byte
(for a 4-byte chunk) and finishes, never requesting the remaining 196
declared bytes. -/
theorem cex_C3 :
    (receive_response 5 c3trace).map (fun r => (r.ok, r.resultLen, r.chunkAcks)) =
      some (true, 4, [4]) := by
  decide

/-- C3 as amended: for every declared length exceeding the buffer
capacity, receive_response stores at most max_len - 1 bytes (the clamped
length) and acknowledges chunks only for the clamped length: the total
bytes acknowledged equal the bytes kept, which are at most max_len - 1,
so the sender is never acknowledged for the truncated-away remainder. -/
theorem claim_C3 (max_len : Nat) (tr : List Obs) (r : RespRes)
    (h : receive_response max_len tr = some r) :
    r.chunkAcks.sum = r.resultLen ∧ r.resultLen ≤ max_len - 1 := by
  have hh := receive_response_inv max_len tr r h
  exact ⟨hh.1, hh.2.1⟩

/-- C3 witness: the amended theorem applied to the concrete truncation
run of the counterexample trace. -/
theorem claim_C3_witness :
    ([(4 : Nat)] : List Nat).sum = 4 ∧ (4 : Nat) ≤ 5 - 1 :=
  claim_C3 5 c3trace ⟨true, 4, idxWrites 0 (List.replicate 4 65) ++ [(4, 0)], true,
    [4], []⟩ (by decide)

/-- C5: for every sequence of more than 20 appends, the history store
holds exactly the 20 most recent turns, in append order (FIFO eviction:
each append at capacity first drops the oldest turn). -/
theorem claim_C5 (apps : List (String × String)) (hk : 20 < apps.length) :
    (apps.foldl (fun acc t => history_add acc t.1 t.2) []).length = 20 ∧
    apps.foldl (fun acc t => history_add acc t.1 t.2) [] =
      apps.drop (apps.length - 20) := by
  have h := history_foldl_drop apps [] (by simp)
  simp only [List.nil_append, List.length_nil, Nat.zero_add] at h
  constructor
  · rw [h, List.length_drop]
    omega
  · exact h

/-- C5 witness: 21 appends leave exactly the last 20 turns. -/
theorem claim_C5_witness :
    (c5input.foldl (fun acc t => history_add acc t.1 t.2) []).length = 20 ∧
    c5input.foldl (fun acc t => history_add acc t.1 t.2) [] =
      c5input.drop (c5input.length - 20) :=
  claim_C5 c5input (by decide)

/-- C6: the escaping function of the request encoder maps each of quote,
backslash, newline, carriage return and tab to its two-character escape
form, drops every byte outside printable ASCII other than those five, and
passes every other byte through unchanged - i.e. it agrees with the
spec-worded per-character substitution map on every input string. -/
theorem claim_C6 (s : List Nat) : json_escape_to_uart s = jsonEscapeSpec s := by
  induction s with
  | nil => rfl
  | cons c s ih =>
    show json_escape_char c ++ json_escape_to_uart s = _
    rw [ih, json_escape_char_eq_spec]
    rfl

/-- C7: when the parsed header is LEN:0, receive_response returns success
with an empty NUL-terminated result (one write, the NUL at index 0), sends
no header ack and no chunk acks, and consumes nothing of the trace beyond
the header - no chunk-phase channel activity at all. -/
theorem claim_C7 (max_len : Nat) (tr tr1 : List Obs)
    (hh : wait_for_len_or_error (startOf tr) [] tr = some (0, tr1)) :
    receive_response max_len tr = some ⟨true, 0, [(0, 0)], false, [], tr1⟩ := by
  unfold receive_response
  rw [hh]
  rfl

/-- C7 witness: a concrete LEN:0 header followed by one observation that
receive_response leaves untouched. -/
theorem claim_C7_witness :
    receive_response 16384 c7trace = some ⟨true, 0, [(0, 0)], false, [], [obsB 9 9]⟩ :=
  claim_C7 16384 c7trace [obsB 9 9] (by decide)

/-- C8: with header LEN:200 and a 200-byte body with no early terminator,
receive_response sends exactly 4 chunk acknowledgement bytes, one after
each chunk, of sizes 64, 64, 64 and 8, and keeps all 200 bytes. -/
theorem claim_C8 :
    (receive_response 16384 c8trace).map (fun r => (r.ok, r.resultLen, r.chunkAcks)) =
      some (true, 200, [64, 64, 64, 8]) := by
  decide

/-- C10: for buffer capacity at least 1, every write receive_response
performs into the caller-supplied buffer (body bytes and NUL terminators)
lands at an index strictly below the capacity. -/
theorem claim_C10 (max_len : Nat) (tr : List Obs) (r : RespRes)
    (hml : 1 ≤ max_len) (h : receive_response max_len tr = some r) :
    ∀ p ∈ r.writes, p.1 < max_len := by
  intro p hp
  have hh := (receive_response_inv max_len tr r h).2.2 p hp
  omega

/-- C10 witness: the theorem applied to a concrete LEN:0 run with
capacity 1, whose single write is the NUL at index 0. -/
theorem claim_C10_witness : ((0 : Nat), (0 : Nat)).1 < 1 :=
  claim_C10 1 c10trace ⟨true, 0, [(0, 0)], false, [], []⟩ (by decide) (by decide)
    (0, 0) (by decide)

/-- In the chunk phase, a burst of prompt non-terminator bytes (any
number, strictly short of the expected length) followed by an idle
observation with the cancel signal asserted (within the inactivity
deadline) makes the chunk loop return the cancel failure at that very
observation: one ack byte per completed chunk was sent, every delivered
byte was stored, and the NUL is written at the completed-chunk byte count
CHUNK_SIZE * (bs.length / CHUNK_SIZE), with the trailing trace
untouched. -/
theorem recvLoop_cancel_burst (expected : Nat) (bs : List Nat) (t tc : Nat)
    (rest : List Obs)
    (hbs : bs.length < expected)
    (hne : ∀ b ∈ bs, b ≠ EOT_CHAR)
    (htc : tc - t < 120000) :
    recvLoop expected 0 0 (startOf (bytesAt t bs ++ obsEsc tc :: rest)) [] []
        (bytesAt t bs ++ obsEsc tc :: rest) =
      some ⟨.cancel, CHUNK_SIZE * (bs.length / CHUNK_SIZE),
        idxWrites 0 bs ++ [(CHUNK_SIZE * (bs.length / CHUNK_SIZE), 0)],
        List.replicate (bs.length / CHUNK_SIZE) CHUNK_SIZE, rest⟩ := by
  cases bs with
  | nil =>
    show recvLoop expected 0 0 tc [] [] (obsEsc tc :: rest) = _
    simp only [recvLoop, obsEsc]
    rw [if_neg (show ¬(120000 ≤ tc - tc) by omega)]
    rfl
  | cons b bs' =>
    show recvLoop expected 0 0 t [] []
        (bytesAt t (b :: bs') ++ obsEsc tc :: rest) = _
    rw [recvLoop_burst (b :: bs') expected 0 0 t t [] [] (obsEsc tc :: rest) hne
      (by decide) (by simpa using hbs) (by omega)]
    simp only [List.isEmpty_cons, Nat.zero_add, List.nil_append, ite_self,
      Bool.false_eq_true, if_false]
    simp only [recvLoop, obsEsc]
    rw [if_neg (show ¬(120000 ≤ tc - t) by omega)]
    rfl

/-- The head of a nonempty trace is at or after any lower bound valid for
all its elements. -/
theorem startOf_ge_of_all (tr : List Obs) (t1 : Nat)
    (hall : ∀ e ∈ tr, t1 ≤ e.now) : tr = [] ∨ t1 ≤ startOf tr := by
  cases tr with
  | nil => exact Or.inl rfl
  | cons e tr => exact Or.inr (hall e (List.mem_cons_self _ _))

/-- C4 counterexample: the claim says the buffer is null-terminated at the
number of bytes received so far.  On a run with header LEN:10, three body
bytes stored (writes at indices 0, 1, 2) and then cancellation while idle,
the code null-terminates at index 0 - the `received` counter of completed
chunks - not at 3, discarding the in-progress chunk bytes. -/
theorem cex_C4 :
    (receive_response 16384 c4trace).map (fun r => (r.ok, r.resultLen, r.writes)) =
      some (false, 0, [(0, 65), (1, 66), (2, 67), (0, 0)]) := by
  decide

/-- C4 as amended: if the cancel signal is asserted on an idle poll
iteration of the chunk phase while the inactivity deadline has not yet
expired, receive_response returns failure at that very iteration (the
rest of the trace is untouched), with the buffer NUL-terminated at the
count of bytes from completed chunks - CHUNK_SIZE per completed chunk,
i.e. CHUNK_SIZE * (k / CHUNK_SIZE) after k delivered body bytes (k below
the clamped expected length); the bytes of the in-progress chunk, though
stored, are discarded by the NUL. -/
theorem claim_C4 (max_len : Nat) (tr : List Obs) (len : Int) (bs : List Nat)
    (t tc : Nat) (rest : List Obs)
    (hh : wait_for_len_or_error (startOf tr) [] tr =
      some (len, bytesAt t bs ++ obsEsc tc :: rest))
    (hlen1 : 1 ≤ len)
    (hbs : bs.length <
      (if (max_len : Int) ≤ len then max_len - 1 else len.toNat))
    (hne : ∀ b ∈ bs, b ≠ EOT_CHAR)
    (htc : tc - t < 120000) :
    receive_response max_len tr =
      some ⟨false, CHUNK_SIZE * (bs.length / CHUNK_SIZE),
        idxWrites 0 bs ++ [(CHUNK_SIZE * (bs.length / CHUNK_SIZE), 0)], true,
        List.replicate (bs.length / CHUNK_SIZE) CHUNK_SIZE, rest⟩ := by
  unfold receive_response
  simp only [hh]
  set E : Nat := if (max_len : Int) ≤ len then max_len - 1 else len.toNat with hE
  rw [if_neg (show ¬(len < 0) by omega), if_neg (show len ≠ 0 by omega),
    if_neg (show ¬(E = 0) by omega)]
  rw [recvLoop_cancel_burst E bs t tc rest (by omega) hne htc]
  rfl

/-- C4 witness: the amended theorem applied to a cancel run with one
completed chunk: header LEN:100, 67 body bytes (one full 64-byte chunk,
acknowledged, plus 3 bytes of the next), then cancellation; the NUL lands
at index 64, the completed-chunk count, and one further observation is
left untouched. -/
theorem claim_C4_witness :
    receive_response 16384 c4btrace =
      some ⟨false, 64, idxWrites 0 (List.replicate 67 65) ++ [(64, 0)], true,
        [64], [obsN 7]⟩ :=
  claim_C4 16384 c4btrace 100 (List.replicate 67 65) 0 0 [obsN 7] (by decide)
    (by decide) (by decide) (by decide) (by decide)

/-- C9: on a quiet monotone trace (no byte ever arrives, no cancel), if
the handshake returns at all it returns Failed, and only at a time at
least 100 + 2000 + 15000 + 50 + 5000 ms past its start - in particular
after the 15 s Await-Ready deadline has fully elapsed, not at the ≈2 s
deadline of the wake stage; and on the concrete no-byte trace it does
terminate in Failed, at 28000 ms. -/
theorem claim_C9 :
    (∀ tr : List Obs, Quiet tr → Mono tr →
      ∀ b t r, uart_handshake tr = some (b, t, r) →
        b = false ∧ startOf tr + 22150 ≤ t) ∧
    uart_handshake c9trace = some (false, 28000, []) := by
  constructor
  · intro tr hq hm b t r h
    unfold uart_handshake at h
    cases h1 : uart_drain 100 (startOf tr) tr with
    | none => simp only [h1] at h; exact Option.noConfusion h
    | some p1 =>
      obtain ⟨t1, tr1⟩ := p1
      simp only [h1] at h
      have d1 := uart_drain_quiet tr 100 (startOf tr) (by omega) hq hm t1 tr1 h1
      rcases startOf_ge_of_all tr1 t1 d1.2.2.2 with hnil | hge1
      · subst hnil
        simp [lineWait] at h
      cases h2 : lineWait 2000 [AWAKEs, ESP_READYs] false (startOf tr1) [] tr1 with
      | none => simp only [h2] at h; exact Option.noConfusion h
      | some ex1 =>
        simp only [h2] at h
        have l1 := lineWait_quiet tr1 2000 [AWAKEs, ESP_READYs] false (startOf tr1) []
          (by omega) d1.2.1 d1.2.2.1 ex1 h2
        rcases startOf_ge_of_all ex1.rest ex1.time l1.2.2.2.2 with hnil | hge2
        · rw [hnil] at h
          simp [lineWait] at h
        cases h3 : lineWait 15000 [ESP_READYs] true (startOf ex1.rest) [] ex1.rest with
        | none => simp only [h3] at h; exact Option.noConfusion h
        | some ex2 =>
          simp only [h3] at h
          have l2 := lineWait_quiet ex1.rest 15000 [ESP_READYs] true (startOf ex1.rest)
            [] (by omega) l1.2.2.1 l1.2.2.2.1 ex2 h3
          rw [l2.1, if_neg (by decide : ¬(LWKind.deadline = LWKind.escAbort))] at h
          rcases startOf_ge_of_all ex2.rest ex2.time l2.2.2.2.2 with hnil | hge3
          · rw [hnil] at h
            simp [uart_drain] at h
          cases h4 : uart_drain 50 (startOf ex2.rest) ex2.rest with
          | none => simp only [h4] at h; exact Option.noConfusion h
          | some p4 =>
            obtain ⟨t4, tr4⟩ := p4
            simp only [h4] at h
            have d4 := uart_drain_quiet ex2.rest 50 (startOf ex2.rest) (by omega)
              l2.2.2.1 l2.2.2.2.1 t4 tr4 h4
            rcases startOf_ge_of_all tr4 t4 d4.2.2.2 with hnil | hge4
            · subst hnil
              simp [lineWait] at h
            cases h5 : lineWait 5000 [READYs] false (startOf tr4) [] tr4 with
            | none => simp only [h5] at h; exact Option.noConfusion h
            | some ex3 =>
              simp only [h5] at h
              have l3 := lineWait_quiet tr4 5000 [READYs] false (startOf tr4) []
                (by omega) d4.2.1 d4.2.2.1 ex3 h5
              rw [l3.1, if_neg (by decide : ¬(LWKind.deadline = LWKind.hit))] at h
              have hinj := Option.some.inj h
              rw [Prod.mk.injEq, Prod.mk.injEq] at hinj
              obtain ⟨rfl, rfl, rfl⟩ := hinj
              refine ⟨rfl, ?_⟩
              have b1 := d1.1
              have b2 := l1.2.1
              have b3 := l2.2.1
              have b4 := d4.1
              have b5 := l3.2.1
              omega
  · decide

/-- C9 witness: the general bound applied to the concrete no-byte trace,
on which the handshake returns Failed at 28000 ms. -/
theorem claim_C9_witness : false = false ∧ startOf c9trace + 22150 ≤ 28000 :=
  claim_C9.1 c9trace (by unfold Quiet; decide) (by unfold Mono; decide) false 28000 []
    (by decide)

end Renspired
